import Mathlib

/-!
Verification of the RSA arithmetic core of the
fighting-information-leakage repository (three Python demo scripts:
generate-8bit-RSA-keyPair.py, Shor-classicalEdition-8bit.py,
extract-8bit-RSA-publicKeyMaterial.py) against its specification.

The scripts perform all arithmetic inline on Python arbitrary-precision
integers, so the embedding uses Nat.  Fallible operations are embedded
with Except over an explicit error taxonomy (spec section 7): the
scripts realise these failures as Python exceptions (ValueError from
pow(e, -1, m)) or inline if-checks.
-/

/-- Error taxonomy of spec section 7. -/
inductive RsaError where
  | invalidExponent
  | noInverseExists
  | messageTooLarge
  | ciphertextTooLarge
  | encodingOverflow
  | nonCoprimeExponent
  | unfactored
deriving DecidableEq, Repr

/-- Public key {N, e}: rsa.RSAPublicNumbers(e, N) in both scripts. -/
structure PublicKey where
  N : Nat
  e : Nat
deriving DecidableEq, Repr

/-- Private key {N, d, p, q, dmp1, dmq1, iqmp}: the field list of
rsa.RSAPrivateNumbers in generate-8bit-RSA-keyPair.py lines 52-60. -/
structure PrivateKey where
  N : Nat
  d : Nat
  p : Nat
  q : Nat
  dmp1 : Nat
  dmq1 : Nat
  iqmp : Nat
deriving DecidableEq, Repr

/-- Python three-argument pow(base, exponent, modulus), used at
Shor-classicalEdition-8bit.py lines 62, 66, 102, 106.  Python computes it
by square-and-multiply; extensionally it is exponentiation followed by
reduction. -/
def modPow (base exponent modulus : Nat) : Nat := base ^ exponent % modulus

/-- Python pow(a, -1, m), used at Shor-classicalEdition-8bit.py lines 46
and 177 and generate-8bit-RSA-keyPair.py line 58: returns the unique
inverse of a in [0, m) and raises ValueError (NoInverseExists in the spec
taxonomy) when a is not invertible mod m.  Embedded as a bounded search
for the unique representative, which is extensionally the builtin's
behaviour for every m. -/
def modInverse (a m : Nat) : Except RsaError Nat :=
  match (List.range m).find? (fun x => a * x % m == 1 % m) with
  | some x => .ok x
  | none => .error .noInverseExists

/-- The trial-division loop of Shor-classicalEdition-8bit.py lines
164-168 (and extract-8bit-RSA-publicKeyMaterial.py lines 86-91):
successive candidate divisors i with i * i <= N, i.e. i up to the integer
square root of N inclusive.  Structural fuel makes the loop kernel-
computable; factor supplies enough fuel for the whole range. -/
def factorAux (N : Nat) : Nat → Nat → Option (Nat × Nat)
  | _, 0 => none
  | i, fuel + 1 =>
    if i * i ≤ N then
      if N % i = 0 then some (i, N / i) else factorAux N (i + 1) fuel
    else none

/-- factor(N): the loop of Shor-classicalEdition-8bit.py lines 163-168,
returning the first divisor pair found or none (Unfactored). -/
def factor (N : Nat) : Option (Nat × Nat) := factorAux N 2 N

/-- Modelled from the spec, section 4.2 (generate): the repository's
generate-8bit-RSA-keyPair.py computes N, phi, dmp1, dmq1, iqmp with this
arithmetic (lines 27, 37, 56-58) but hardcodes d = 107 and only prints
its coprimality check instead of failing; the spec refactors it into a
fallible operation that checks gcd(e, phi) = 1 and derives d by modular
inversion. -/
def generate (p q e : Nat) : Except RsaError (PublicKey × PrivateKey) :=
  if Nat.gcd e ((p - 1) * (q - 1)) ≠ 1 then .error .invalidExponent
  else
    match modInverse e ((p - 1) * (q - 1)), modInverse q p with
    | .ok d, .ok iq =>
      .ok ({ N := p * q, e := e },
           { N := p * q, d := d, p := p, q := q,
             dmp1 := d % (p - 1), dmq1 := d % (q - 1), iqmp := iq })
    | .error _, _ => .error .invalidExponent
    | _, .error _ => .error .noInverseExists

/-- encryptInt: pow(message, e, N) from Shor-classicalEdition-8bit.py
lines 62 and 102, with the size guard of line 93 / spec section 4.3
(MessageTooLarge) made explicit. -/
def encryptInt (m : Nat) (pub : PublicKey) : Except RsaError Nat :=
  if m < pub.N then .ok (modPow m pub.e pub.N) else .error .messageTooLarge

/-- decryptInt: pow(ciphertext, d, N) from Shor-classicalEdition-8bit.py
lines 66 and 106, with the spec's CiphertextTooLarge guard. -/
def decryptInt (c : Nat) (priv : PrivateKey) : Except RsaError Nat :=
  if c < priv.N then .ok (modPow c priv.d priv.N) else .error .ciphertextTooLarge

/-- Modelled from the spec, sections 3 and 4.3: the CRT-accelerated
decryption path.  The repository computes the CRT fields dmp1, dmq1,
iqmp (generate-8bit-RSA-keyPair.py lines 56-58) but delegates their use
to the external cryptography library, so the combination step (Garner's
formula: residues mod p and q recombined with iqmp) is modelled here. -/
def decryptCRT (c : Nat) (priv : PrivateKey) : Except RsaError Nat :=
  if c < priv.N then
    let m1 := modPow c priv.dmp1 priv.p
    let m2 := modPow c priv.dmq1 priv.q
    let h := priv.iqmp * (m1 + priv.p - m2 % priv.p) % priv.p
    .ok (m2 + h * priv.q)
  else .error .ciphertextTooLarge

/-- encodeText: int.from_bytes(bytes, big-endian) from
Shor-classicalEdition-8bit.py line 89. -/
def encodeText (bs : List Nat) : Nat := bs.foldl (fun acc b => acc * 256 + b) 0

/-- Modelled from the spec, section 4.3 (encoding overflow policy): the
script checks message_as_number >= N at line 93 and substitutes a
smaller message inline; the spec refactors the check into an explicit
EncodingOverflow failure with the substitution left to the caller. -/
def encodeTextChecked (bs : List Nat) (N : Nat) : Except RsaError Nat :=
  if encodeText bs < N then .ok (encodeText bs) else .error .encodingOverflow

/-- Python int.bit_length (Shor-classicalEdition-8bit.py line 111),
with structural fuel; bitLength supplies fuel n, enough since the
argument at least halves every step. -/
def bitLenAux : Nat → Nat → Nat
  | _, 0 => 0
  | 0, _ + 1 => 0
  | fuel + 1, n + 1 => bitLenAux fuel ((n + 1) / 2) + 1

/-- Python (n).bit_length(): the number of bits needed to represent n,
with bitLength 0 = 0. -/
def bitLength (n : Nat) : Nat := bitLenAux n n

/-- Python n.to_bytes(len, big-endian): exactly len bytes, most
significant first (Shor-classicalEdition-8bit.py line 111). -/
def toBytesBE : Nat → Nat → List Nat
  | 0, _ => []
  | len + 1, n => toBytesBE len (n / 256) ++ [n % 256]

/-- decodeText: decrypted_number.to_bytes((bit_length + 7) // 8, big)
from Shor-classicalEdition-8bit.py line 111. -/
def decodeText (n : Nat) : List Nat := toBytesBE ((bitLength n + 7) / 8) n

/-- recoverPrivateExponent: Shor-classicalEdition-8bit.py lines 161-184 —
factor N, compute phi from the factors, invert e mod phi; the except
ValueError branch at line 183 is the spec's NonCoprimeExponent signal,
the else branch at line 185 the Unfactored signal. -/
def recoverPrivateExponent (N e : Nat) : Except RsaError Nat :=
  match factor N with
  | none => .error .unfactored
  | some (fp, fq) =>
    if Nat.gcd e ((fp - 1) * (fq - 1)) = 1 then modInverse e ((fp - 1) * (fq - 1))
    else .error .nonCoprimeExponent

/-- isCompromised: the equality check found_d == d at
Shor-classicalEdition-8bit.py line 179. -/
def isCompromised (recovered_d actual_d : Nat) : Bool := recovered_d == actual_d

/-! ### Helper lemmas about modInverse -/

theorem modInverse_ok {a m x : Nat} (h : modInverse a m = .ok x) :
    x < m ∧ a * x % m = 1 % m := by
  unfold modInverse at h
  rcases hf : (List.range m).find? (fun x => a * x % m == 1 % m) with _ | y
  · rw [hf] at h; exact absurd h (by simp)
  · rw [hf] at h
    have hy := List.find?_some hf
    have hmem := List.mem_of_find?_eq_some hf
    have hxy : y = x := by injection h
    subst hxy
    exact ⟨List.mem_range.mp hmem, by simpa using hy⟩

theorem modInverse_exists (a m : Nat) (hm : 1 ≤ m) (hcop : Nat.gcd a m = 1) :
    ∃ x, modInverse a m = .ok x := by
  have hmz : (m : Int) ≠ 0 := by
    have : m ≠ 0 := by omega
    exact_mod_cast this
  have hmpos : (0 : Int) < m := by exact_mod_cast hm
  set A := Nat.gcdA a m with hA
  set B := Nat.gcdB a m with hB
  have key : (1 : Int) = a * A + m * B := by
    have hab := Nat.gcd_eq_gcd_ab a m
    rw [hcop] at hab
    exact_mod_cast hab
  set w : Nat := (A % (m : Int)).toNat with hw
  have hw1 : (w : Int) = A % m := Int.toNat_of_nonneg (Int.emod_nonneg A hmz)
  have hwlt : w < m := by
    have h1 := Int.emod_lt_of_pos A hmpos
    omega
  have hdm : A % (m : Int) = A - m * (A / m) := by
    linarith [Int.ediv_add_emod A m]
  have hfac : (1 : Int) - a * w = m * (B + a * (A / m)) := by
    rw [hw1, hdm, key]; ring
  have hdvd : (m : Int) ∣ (1 : Int) - ((a * w : Nat) : Int) := by
    push_cast
    exact ⟨B + a * (A / m), hfac⟩
  have hmodeq : a * w ≡ 1 [MOD m] := (Nat.modEq_iff_dvd).mpr (by exact_mod_cast hdvd)
  have hmod : a * w % m = 1 % m := hmodeq
  rcases hf : (List.range m).find? (fun x => a * x % m == 1 % m) with _ | y
  · exfalso
    have hcon := List.find?_eq_none.mp hf w (List.mem_range.mpr hwlt)
    simp [hmod] at hcon
  · exact ⟨y, by unfold modInverse; rw [hf]⟩

theorem modInverse_unique {a m x y : Nat} (hcop : Nat.gcd a m = 1)
    (hx : x < m) (hy : y < m)
    (hax : a * x % m = 1 % m) (hay : a * y % m = 1 % m) : x = y := by
  have h : a * x ≡ a * y [MOD m] := hax.trans hay.symm
  have h2 : x ≡ y [MOD m] :=
    Nat.ModEq.cancel_left_of_coprime (by rwa [Nat.gcd_comm]) h
  have h3 : x % m = y % m := h2
  rwa [Nat.mod_eq_of_lt hx, Nat.mod_eq_of_lt hy] at h3

theorem modInverse_none (a m : Nat) (hg : Nat.gcd a m ≠ 1) :
    modInverse a m = .error .noInverseExists := by
  unfold modInverse
  rcases hf : (List.range m).find? (fun x => a * x % m == 1 % m) with _ | x
  · rfl
  · exfalso
    have hpx := List.find?_some hf
    have hmem := List.mem_range.mp (List.mem_of_find?_eq_some hf)
    have hax : a * x % m = 1 % m := by simpa using hpx
    have hm1 : m ≠ 1 := fun h => hg (by simp [h])
    have hm2 : 2 ≤ m := by omega
    have hax1 : a * x % m = 1 := by rwa [Nat.mod_eq_of_lt hm2] at hax
    have hdam := Nat.div_add_mod (a * x) m
    have hd1 : Nat.gcd a m ∣ a * x := Dvd.dvd.mul_right (Nat.gcd_dvd_left a m) x
    have hd2 : Nat.gcd a m ∣ m * (a * x / m) := Dvd.dvd.mul_right (Nat.gcd_dvd_right a m) _
    have hsub : a * x - m * (a * x / m) = 1 := by omega
    have : Nat.gcd a m ∣ 1 := hsub ▸ Nat.dvd_sub' hd1 hd2
    exact hg (Nat.dvd_one.mp this)

/-! ### Helper lemmas: totient arithmetic for two distinct primes -/

theorem two_le_phi {p q : Nat} (hp : p.Prime) (hq : q.Prime) (hne : p ≠ q) :
    2 ≤ (p - 1) * (q - 1) := by
  have hp2 := hp.two_le
  have hq2 := hq.two_le
  rcases Nat.lt_or_ge p q with h | h
  · calc 2 = 1 * 2 := by norm_num
    _ ≤ (p - 1) * (q - 1) := Nat.mul_le_mul (by omega) (by omega)
  · have h' : q < p := by omega
    calc 2 = 2 * 1 := by norm_num
    _ ≤ (p - 1) * (q - 1) := Nat.mul_le_mul (by omega) (by omega)

theorem pow_modEq_pow_aux {p : Nat} (hp : p.Prime) (a j k : Nat)
    (hj : 1 ≤ j) (hjk : j ≡ k [MOD p - 1]) (hle : j ≤ k) :
    a ^ j ≡ a ^ k [MOD p] := by
  obtain ⟨t, ht⟩ := (Nat.modEq_iff_dvd' hle).mp hjk
  have hk : k = j + (p - 1) * t := by omega
  subst hk
  rw [pow_add, pow_mul]
  by_cases hpa : p ∣ a
  · show a ^ j % p = a ^ j * (a ^ (p - 1)) ^ t % p
    rw [Nat.mod_eq_zero_of_dvd (dvd_pow hpa (by omega)),
      Nat.mod_eq_zero_of_dvd (Dvd.dvd.mul_right (dvd_pow hpa (by omega)) _)]
  · have hco : Nat.Coprime a p := ((Nat.Prime.coprime_iff_not_dvd hp).mpr hpa).symm
    have heuler : a ^ (p - 1) ≡ 1 [MOD p] := by
      have h := Nat.ModEq.pow_totient hco
      rwa [Nat.totient_prime hp] at h
    have h2 : (a ^ (p - 1)) ^ t ≡ 1 [MOD p] := by
      simpa using heuler.pow t
    simpa using (Nat.ModEq.mul_left (a ^ j) h2).symm

theorem pow_modEq_pow {p : Nat} (hp : p.Prime) (a j k : Nat)
    (hj : 1 ≤ j) (hk : 1 ≤ k) (hjk : j ≡ k [MOD p - 1]) :
    a ^ j ≡ a ^ k [MOD p] := by
  rcases le_total j k with h | h
  · exact pow_modEq_pow_aux hp a j k hj hjk h
  · exact (pow_modEq_pow_aux hp a k j hk hjk.symm h).symm

/-- Core RSA correctness: raising to e and then to d modulo p*q recovers
any message below the modulus, whenever e*d is 1 modulo the totient. -/
theorem rsa_roundtrip_core {p q : Nat} (hp : p.Prime) (hq : q.Prime) (hne : p ≠ q)
    (e d : Nat) (hed : (e * d) % ((p - 1) * (q - 1)) = 1)
    (m : Nat) (hm : m < p * q) :
    (m ^ e % (p * q)) ^ d % (p * q) = m := by
  have hphi : 2 ≤ (p - 1) * (q - 1) := two_le_phi hp hq hne
  have hed1 : 1 ≤ e * d := by
    rcases Nat.eq_zero_or_pos (e * d) with h | h
    · rw [h, Nat.zero_mod] at hed; omega
    · exact h
  have hmodphi : e * d ≡ 1 [MOD (p - 1) * (q - 1)] := by
    show (e * d) % _ = 1 % _
    rw [hed, Nat.mod_eq_of_lt (by omega)]
  have hmp : m ^ (e * d) ≡ m [MOD p] := by
    have h1 : e * d ≡ 1 [MOD p - 1] := hmodphi.of_dvd (dvd_mul_right _ _)
    simpa using pow_modEq_pow hp m (e * d) 1 hed1 (by omega) h1
  have hmq : m ^ (e * d) ≡ m [MOD q] := by
    have h1 : e * d ≡ 1 [MOD q - 1] := hmodphi.of_dvd (dvd_mul_left _ _)
    simpa using pow_modEq_pow hq m (e * d) 1 hed1 (by omega) h1
  have hcop : Nat.Coprime p q := (Nat.coprime_primes hp hq).mpr hne
  have hN : m ^ (e * d) ≡ m [MOD p * q] :=
    (Nat.modEq_and_modEq_iff_modEq_mul hcop).mp ⟨hmp, hmq⟩
  calc (m ^ e % (p * q)) ^ d % (p * q) = (m ^ e) ^ d % (p * q) := by
        rw [← Nat.pow_mod]
  _ = m ^ (e * d) % (p * q) := by rw [← pow_mul]
  _ = m % (p * q) := hN
  _ = m := Nat.mod_eq_of_lt hm

/-! ### Helper lemmas about generate -/

theorem generate_inv {p q e : Nat} {pub : PublicKey} {priv : PrivateKey}
    (h : generate p q e = .ok (pub, priv)) :
    Nat.gcd e ((p - 1) * (q - 1)) = 1 ∧
    pub = { N := p * q, e := e } ∧
    priv.N = p * q ∧ priv.p = p ∧ priv.q = q ∧
    modInverse e ((p - 1) * (q - 1)) = .ok priv.d ∧
    priv.dmp1 = priv.d % (p - 1) ∧ priv.dmq1 = priv.d % (q - 1) ∧
    modInverse q p = .ok priv.iqmp := by
  unfold generate at h
  by_cases hg : Nat.gcd e ((p - 1) * (q - 1)) = 1
  · rw [if_neg (by simp [hg])] at h
    rcases hd : modInverse e ((p - 1) * (q - 1)) with err | d
    · rw [hd] at h; exact absurd h (by simp)
    · rcases hiq : modInverse q p with err | iq
      · rw [hd, hiq] at h; exact absurd h (by simp)
      · rw [hd, hiq] at h
        injection h with h1
        injection h1 with hpub hpriv
        subst hpub; subst hpriv
        exact ⟨hg, rfl, rfl, rfl, rfl, rfl, rfl, rfl, rfl⟩
  · rw [if_pos (by simpa using hg)] at h
    exact absurd h (by simp)

theorem generate_ok {p q e : Nat} (hp : p.Prime) (hq : q.Prime) (hne : p ≠ q)
    (hcop : Nat.gcd e ((p - 1) * (q - 1)) = 1) :
    ∃ d iq, modInverse e ((p - 1) * (q - 1)) = .ok d ∧ modInverse q p = .ok iq ∧
      generate p q e = .ok ({ N := p * q, e := e },
        { N := p * q, d := d, p := p, q := q,
          dmp1 := d % (p - 1), dmq1 := d % (q - 1), iqmp := iq }) := by
  have hphi : 1 ≤ (p - 1) * (q - 1) := by
    have := two_le_phi hp hq hne; omega
  obtain ⟨d, hd⟩ := modInverse_exists e _ hphi hcop
  have hqp : Nat.gcd q p = 1 := (Nat.coprime_primes hq hp).mpr (fun h => hne h.symm)
  obtain ⟨iq, hiq⟩ := modInverse_exists q p hp.pos hqp
  exact ⟨d, iq, hd, hiq, by unfold generate; rw [if_neg (by simp [hcop]), hd, hiq]⟩

/-! ### Garner recombination for the CRT decryption path -/

theorem garner_combine {p q iq M m1 m2 : Nat} (hp : 0 < p) (hq : 0 < q)
    (hcop : Nat.Coprime p q) (hiq : q * iq ≡ 1 [MOD p]) (hM : M < p * q)
    (h1 : m1 ≡ M [MOD p]) (h2 : m2 ≡ M [MOD q]) (hm2 : m2 < q) :
    m2 + iq * (m1 + p - m2 % p) % p * q = M := by
  set h := iq * (m1 + p - m2 % p) % p with hh
  have hhp : h < p := Nat.mod_lt _ hp
  have hlt : m2 + h * q < p * q := by
    have step : (h + 1) * q ≤ p * q := Nat.mul_le_mul_right q (by omega)
    calc m2 + h * q < q + h * q := by omega
    _ = (h + 1) * q := by ring
    _ ≤ p * q := step
  have modq : m2 + h * q ≡ M [MOD q] := by
    have e0 : (m2 + h * q) % q = m2 % q := Nat.add_mul_mod_self_right m2 h q
    exact (show m2 + h * q ≡ m2 [MOD q] from e0).trans h2
  have modp : m2 + h * q ≡ M [MOD p] := by
    have e1 : h ≡ iq * (m1 + p - m2 % p) [MOD p] := Nat.mod_modEq _ p
    have e2 : m2 + h * q ≡ m2 + iq * (m1 + p - m2 % p) * q [MOD p] :=
      (e1.mul_right q).add_left m2
    have e3 : iq * (m1 + p - m2 % p) * q = q * iq * (m1 + p - m2 % p) := by ring
    rw [e3] at e2
    have e4 : q * iq * (m1 + p - m2 % p) ≡ 1 * (m1 + p - m2 % p) [MOD p] :=
      hiq.mul_right _
    have e5 : m2 + h * q ≡ m2 + (m1 + p - m2 % p) [MOD p] := by
      have := e2.trans (e4.add_left m2)
      rwa [one_mul] at this
    have hkey : m2 + (m1 + p - m2 % p) = m1 + p * (m2 / p + 1) := by
      have hd := Nat.div_add_mod m2 p
      have hlt2 : m2 % p < p := Nat.mod_lt _ hp
      have hexp : p * (m2 / p + 1) = p * (m2 / p) + p := by ring
      omega
    have e6 : m1 + p * (m2 / p + 1) ≡ m1 [MOD p] := by
      show (m1 + p * (m2 / p + 1)) % p = m1 % p
      exact Nat.add_mul_mod_self_left m1 p (m2 / p + 1)
    have e7 : m2 + h * q ≡ m1 [MOD p] := by
      rw [hkey] at e5
      exact e5.trans e6
    exact e7.trans h1
  have hfinal : m2 + h * q ≡ M [MOD p * q] :=
    (Nat.modEq_and_modEq_iff_modEq_mul hcop).mp ⟨modp, modq⟩
  have hmm : (m2 + h * q) % (p * q) = M % (p * q) := hfinal
  rwa [Nat.mod_eq_of_lt hlt, Nat.mod_eq_of_lt hM] at hmm

/-! ### Helper lemmas about the trial-division loop -/

theorem factorAux_eq_none {N : Nat} (fuel : Nat) :
    ∀ i, (∀ j, i ≤ j → j * j ≤ N → N % j ≠ 0) → factorAux N i fuel = none := by
  induction fuel with
  | zero => intro i _; rfl
  | succ fuel ih =>
    intro i h
    unfold factorAux
    by_cases hi : i * i ≤ N
    · rw [if_pos hi, if_neg (h i le_rfl hi)]
      exact ih (i + 1) (fun j hj hjj => h j (by omega) hjj)
    · rw [if_neg hi]

theorem factorAux_eq_some {N : Nat} (fuel : Nat) :
    ∀ i i₀, i ≤ i₀ → i₀ * i₀ ≤ N → N % i₀ = 0 →
      (∀ j, i ≤ j → j < i₀ → N % j ≠ 0) → i₀ + 1 ≤ i + fuel →
      factorAux N i fuel = some (i₀, N / i₀) := by
  induction fuel with
  | zero => intro i i₀ h1 _ _ _ h5; omega
  | succ fuel ih =>
    intro i i₀ h1 h2 h3 h4 h5
    unfold factorAux
    have hi : i * i ≤ N := le_trans (Nat.mul_le_mul h1 h1) h2
    rw [if_pos hi]
    by_cases hdvd : N % i = 0
    · rw [if_pos hdvd]
      have heq : i = i₀ := by
        by_contra hne
        exact h4 i le_rfl (by omega) hdvd
      rw [heq]
    · rw [if_neg hdvd]
      have hii : i < i₀ := by
        rcases Nat.lt_or_ge i i₀ with hlt | hge
        · exact hlt
        · have heq : i = i₀ := by omega
          rw [heq] at hdvd; exact absurd h3 hdvd
      exact ih (i + 1) i₀ (by omega) h2 h3 (fun j hj hji => h4 j (by omega) hji) (by omega)

theorem factorAux_some_inv {N : Nat} (fuel : Nat) :
    ∀ i a b, factorAux N i fuel = some (a, b) →
      i ≤ a ∧ a * a ≤ N ∧ N % a = 0 ∧ b = N / a ∧
      ∀ j, i ≤ j → j < a → N % j ≠ 0 := by
  induction fuel with
  | zero => intro i a b h; exact absurd h (by simp [factorAux])
  | succ fuel ih =>
    intro i a b h
    unfold factorAux at h
    by_cases hi : i * i ≤ N
    · rw [if_pos hi] at h
      by_cases hdvd : N % i = 0
      · rw [if_pos hdvd] at h
        injection h with h1
        injection h1 with ha hb
        subst ha; subst hb
        exact ⟨le_rfl, hi, hdvd, rfl, fun j hj hja => by omega⟩
      · rw [if_neg hdvd] at h
        obtain ⟨h1, h2, h3, h4, h5⟩ := ih (i + 1) a b h
        refine ⟨by omega, h2, h3, h4, ?_⟩
        intro j hj hja
        rcases Nat.eq_or_lt_of_le hj with heq | hlt
        · rw [← heq]; exact hdvd
        · exact h5 j (by omega) hja
    · rw [if_neg hi] at h; exact absurd h (by simp)

theorem factor_some_inv {N a b : Nat} (h : factor N = some (a, b)) :
    2 ≤ a ∧ a * a ≤ N ∧ N % a = 0 ∧ b = N / a ∧
    ∀ j, 2 ≤ j → j < a → N % j ≠ 0 :=
  factorAux_some_inv N 2 a b h

theorem factor_eq_none {N : Nat} (h : ∀ i, 2 ≤ i → i * i ≤ N → N % i ≠ 0) :
    factor N = none :=
  factorAux_eq_none N 2 h

theorem factor_of_distinct_primes {p q : Nat} (hp : p.Prime) (hq : q.Prime)
    (hne : p ≠ q) : factor (p * q) = some (min p q, max p q) := by
  have hab : min p q * max p q = p * q := min_mul_max p q
  have ha2 : 2 ≤ min p q := le_min hp.two_le hq.two_le
  have haa : min p q * min p q ≤ p * q := by
    rw [← hab]
    exact Nat.mul_le_mul_left (min p q) (min_le_max)
  have hmod : (p * q) % min p q = 0 := by
    have : min p q ∣ p * q := by rw [← hab]; exact dvd_mul_right _ _
    exact Nat.mod_eq_zero_of_dvd this
  have hdiv : (p * q) / min p q = max p q := by
    rw [← hab]
    exact Nat.mul_div_cancel_left _ (by omega)
  have hmin : ∀ j, 2 ≤ j → j < min p q → (p * q) % j ≠ 0 := by
    intro j h2 hja hmod0
    have hdvd : j ∣ p * q := Nat.dvd_of_mod_eq_zero hmod0
    have hj1 : j ≠ 1 := by omega
    have hr := Nat.minFac_prime hj1
    have hrpq : Nat.minFac j ∣ p * q := (Nat.minFac_dvd j).trans hdvd
    have hle : Nat.minFac j ≤ j := Nat.minFac_le (by omega)
    rcases (Nat.Prime.dvd_mul hr).mp hrpq with hcase | hcase
    · have heq : Nat.minFac j = p := (Nat.prime_dvd_prime_iff_eq hr hp).mp hcase
      have hap : min p q ≤ p := min_le_left p q
      omega
    · have heq : Nat.minFac j = q := (Nat.prime_dvd_prime_iff_eq hr hq).mp hcase
      have haq : min p q ≤ q := min_le_right p q
      omega
  have hfuel : min p q + 1 ≤ 2 + p * q := by
    have hmm : min p q ≤ min p q * min p q := Nat.le_mul_of_pos_left _ (by omega)
    omega
  have hres := factorAux_eq_some (N := p * q) (p * q) 2 (min p q)
    ha2 haa hmod hmin hfuel
  rw [hdiv] at hres
  exact hres

/-! ### Helper lemmas about byte encoding and decoding -/

theorem toBytesBE_length (L : Nat) : ∀ n, (toBytesBE L n).length = L := by
  induction L with
  | zero => intro n; rfl
  | succ L ih =>
    intro n
    unfold toBytesBE
    rw [List.length_append, ih]
    simp

theorem encodeText_append_singleton (xs : List Nat) (b : Nat) :
    encodeText (xs ++ [b]) = encodeText xs * 256 + b := by
  unfold encodeText
  rw [List.foldl_append]
  rfl

theorem encodeText_toBytesBE (L : Nat) :
    ∀ n, n < 256 ^ L → encodeText (toBytesBE L n) = n := by
  induction L with
  | zero =>
    intro n h
    simp only [pow_zero] at h
    have hn : n = 0 := by omega
    subst hn
    rfl
  | succ L ih =>
    intro n h
    unfold toBytesBE
    rw [encodeText_append_singleton]
    have hdiv : n / 256 < 256 ^ L := by
      rw [Nat.div_lt_iff_lt_mul (by norm_num)]
      calc n < 256 ^ (L + 1) := h
      _ = 256 ^ L * 256 := by ring
    rw [ih (n / 256) hdiv]
    have := Nat.div_add_mod n 256
    omega

theorem toBytesBE_head (L : Nat) :
    ∀ n, (toBytesBE (L + 1) n).head? = some (n / 256 ^ L % 256) := by
  induction L with
  | zero =>
    intro n
    simp [toBytesBE]
  | succ L ih =>
    intro n
    show (toBytesBE (L + 1) (n / 256) ++ [n % 256]).head? = _
    have hlen : (toBytesBE (L + 1) (n / 256)).length = L + 1 :=
      toBytesBE_length (L + 1) (n / 256)
    obtain ⟨a, t, hat⟩ : ∃ a t, toBytesBE (L + 1) (n / 256) = a :: t := by
      rcases hcase : toBytesBE (L + 1) (n / 256) with _ | ⟨a, t⟩
      · rw [hcase] at hlen; simp at hlen
      · exact ⟨a, t, rfl⟩
    have hhead := ih (n / 256)
    rw [hat] at hhead
    rw [hat]
    simp only [List.cons_append, List.head?_cons] at hhead ⊢
    have hdd : n / 256 / 256 ^ L = n / 256 ^ (L + 1) := by
      rw [Nat.div_div_eq_div_mul, pow_succ, mul_comm]
    rw [← hdd]
    exact hhead

theorem bitLenAux_zero (fuel : Nat) : bitLenAux fuel 0 = 0 := by
  cases fuel <;> rfl

theorem bitLenAux_spec (fuel : Nat) :
    ∀ n, n ≤ fuel →
      n < 2 ^ bitLenAux fuel n ∧ (1 ≤ n → 2 ^ (bitLenAux fuel n - 1) ≤ n) := by
  induction fuel with
  | zero =>
    intro n h
    have hn : n = 0 := by omega
    subst hn
    exact ⟨by rw [bitLenAux_zero]; norm_num, by omega⟩
  | succ fuel ih =>
    intro n h
    match n with
    | 0 => exact ⟨by rw [bitLenAux_zero]; norm_num, by omega⟩
    | m + 1 =>
      have hrec : (m + 1) / 2 ≤ fuel := by omega
      obtain ⟨ih1, ih2⟩ := ih ((m + 1) / 2) hrec
      constructor
      · show m + 1 < 2 ^ (bitLenAux fuel ((m + 1) / 2) + 1)
        have hexp : 2 ^ (bitLenAux fuel ((m + 1) / 2) + 1) =
            2 * 2 ^ bitLenAux fuel ((m + 1) / 2) := by ring
        omega
      · intro _
        show 2 ^ (bitLenAux fuel ((m + 1) / 2) + 1 - 1) ≤ m + 1
        simp only [Nat.add_sub_cancel]
        by_cases hz : (m + 1) / 2 = 0
        · have hm0 : m = 0 := by omega
          subst hm0
          have hL0 : bitLenAux fuel (1 / 2) = 0 := by
            rw [show (1 : Nat) / 2 = 0 from rfl, bitLenAux_zero]
          rw [hL0]
          norm_num
        · have h1 : 1 ≤ (m + 1) / 2 := by omega
          have hle := ih2 h1
          have hL1 : 1 ≤ bitLenAux fuel ((m + 1) / 2) := by
            by_contra hc
            have hL0 : bitLenAux fuel ((m + 1) / 2) = 0 := by omega
            rw [hL0] at ih1
            omega
          have hexp : 2 ^ bitLenAux fuel ((m + 1) / 2) =
              2 * 2 ^ (bitLenAux fuel ((m + 1) / 2) - 1) := by
            calc 2 ^ bitLenAux fuel ((m + 1) / 2)
                = 2 ^ (bitLenAux fuel ((m + 1) / 2) - 1 + 1) := by
                  rw [Nat.sub_add_cancel hL1]
            _ = 2 * 2 ^ (bitLenAux fuel ((m + 1) / 2) - 1) := by ring
          omega

theorem bitLength_spec (n : Nat) :
    n < 2 ^ bitLength n ∧ (1 ≤ n → 2 ^ (bitLength n - 1) ≤ n) :=
  bitLenAux_spec n n le_rfl

theorem decodeText_bounds (n : Nat) (hn : 1 ≤ n) :
    1 ≤ (bitLength n + 7) / 8 ∧
    256 ^ ((bitLength n + 7) / 8 - 1) ≤ n ∧
    n < 256 ^ ((bitLength n + 7) / 8) := by
  obtain ⟨hup, hlowf⟩ := bitLength_spec n
  have hlow := hlowf hn
  have hbL1 : 1 ≤ bitLength n := by
    by_contra hc
    have h0 : bitLength n = 0 := by omega
    rw [h0] at hup
    simp at hup
    omega
  have hlen1 : 1 ≤ (bitLength n + 7) / 8 := by omega
  have hdivmul : (bitLength n + 7) / 8 * 8 ≤ bitLength n + 7 := Nat.div_mul_le_self _ _
  have hmul : bitLength n ≤ 8 * ((bitLength n + 7) / 8) := by omega
  have h256 : ∀ k : Nat, (256 : Nat) ^ k = 2 ^ (8 * k) := by
    intro k
    rw [show (256 : Nat) = 2 ^ 8 by norm_num, ← pow_mul]
  refine ⟨hlen1, ?_, ?_⟩
  · rw [h256]
    have hexp : 8 * ((bitLength n + 7) / 8 - 1) ≤ bitLength n - 1 := by omega
    exact le_trans (Nat.pow_le_pow_right (by norm_num) hexp) hlow
  · rw [h256]
    exact lt_of_lt_of_le hup (Nat.pow_le_pow_right (by norm_num) hmul)

/-! ### Claim theorems -/

/-- Claim C1: for every valid key pair generated from distinct primes p, q
and exponent e with gcd(e, (p-1)*(q-1)) = 1, and every message m with
0 <= m < N, decrypting the encryption of m recovers m. -/
theorem rsa_encrypt_decrypt_roundtrip (p q e : Nat) (hp : p.Prime) (hq : q.Prime)
    (hne : p ≠ q) (hcop : Nat.gcd e ((p - 1) * (q - 1)) = 1)
    (pub : PublicKey) (priv : PrivateKey)
    (hgen : generate p q e = .ok (pub, priv)) (m : Nat) (hm : m < pub.N) :
    (encryptInt m pub).bind (fun c => decryptInt c priv) = .ok m := by
  obtain ⟨-, hpub, hprivN, -, -, hd, -, -, -⟩ := generate_inv hgen
  subst hpub
  have hmN : m < p * q := hm
  obtain ⟨hdlt, hdmod⟩ := modInverse_ok hd
  have hphi2 := two_le_phi hp hq hne
  have hed : e * priv.d % ((p - 1) * (q - 1)) = 1 := by
    rwa [show (1 : Nat) % ((p - 1) * (q - 1)) = 1 from Nat.mod_eq_of_lt (by omega)]
      at hdmod
  have hcore := rsa_roundtrip_core hp hq hne e priv.d hed m hmN
  have henc : encryptInt m { N := p * q, e := e } = .ok (m ^ e % (p * q)) := by
    unfold encryptInt modPow
    rw [if_pos hm]
  have hdec : decryptInt (m ^ e % (p * q)) priv = .ok m := by
    unfold decryptInt modPow
    rw [hprivN, if_pos (Nat.mod_lt _ (Nat.mul_pos hp.pos hq.pos)), hcore]
  rw [henc]
  exact hdec

/-- Claim C1 witness: the demo key pair at p = 11, q = 17, e = 3 and
message m = 42 round-trips. -/
theorem rsa_encrypt_decrypt_roundtrip_witness :
    (encryptInt 42 { N := 187, e := 3 }).bind
      (fun c => decryptInt c
        { N := 187, d := 107, p := 11, q := 17, dmp1 := 7, dmq1 := 11, iqmp := 2 }) =
      .ok 42 :=
  rsa_encrypt_decrypt_roundtrip 11 17 3 (by norm_num) (by norm_num) (by norm_num)
    (by decide) _ _ rfl 42 (by decide)

/-- Claim C3: factor trial-divides N by every i from 2 up to the integer
square root of N inclusive, in increasing order, returning the first
divisor as (i, N/i) with i <= N/i; on a product of two distinct primes it
returns exactly (min, max) with product N and both components prime; with
no divisor in range it returns none (Unfactored) without crashing. -/
theorem factor_spec (N : Nat) :
    (∀ a b, factor N = some (a, b) →
      2 ≤ a ∧ a ≤ Nat.sqrt N ∧ N % a = 0 ∧ b = N / a ∧ a ≤ b ∧
      ∀ j, 2 ≤ j → j < a → N % j ≠ 0) ∧
    ((∀ i, 2 ≤ i → i ≤ Nat.sqrt N → N % i ≠ 0) → factor N = none) ∧
    (∀ p q, p.Prime → q.Prime → p ≠ q → N = p * q →
      factor N = some (min p q, max p q) ∧ min p q * max p q = N ∧
      (min p q).Prime ∧ (max p q).Prime) := by
  refine ⟨?_, ?_, ?_⟩
  · intro a b h
    obtain ⟨h1, h2, h3, h4, h5⟩ := factor_some_inv h
    have hsq : a ≤ Nat.sqrt N := Nat.le_sqrt.mpr h2
    have hab : a ≤ b := by
      rw [h4]
      exact (Nat.le_div_iff_mul_le (by omega)).mpr h2
    exact ⟨h1, hsq, h3, h4, hab, h5⟩
  · intro h
    exact factor_eq_none (fun i h2 hii => h i h2 (Nat.le_sqrt.mpr hii))
  · intro p q hp hq hne hN
    subst hN
    refine ⟨factor_of_distinct_primes hp hq hne, min_mul_max p q, ?_, ?_⟩
    · rcases le_total p q with h | h
      · rwa [min_eq_left h]
      · rwa [min_eq_right h]
    · rcases le_total p q with h | h
      · rwa [max_eq_right h]
      · rwa [max_eq_left h]

/-- Claim C3 witness: factor 187 finds the factors 11 and 17. -/
theorem factor_spec_witness :
    factor 187 = some (min 11 17, max 11 17) ∧ min 11 17 * max 11 17 = 187 ∧
    Nat.Prime (min 11 17) ∧ Nat.Prime (max 11 17) :=
  (factor_spec 187).2.2 11 17 (by norm_num) (by norm_num) (by norm_num) (by norm_num)

/-- Claim C5: for distinct primes p and q, generate fails with
InvalidExponent exactly when gcd(e, (p-1)*(q-1)) is not 1, and succeeds
with a full key pair otherwise. -/
theorem generate_invalidExponent_iff (p q e : Nat) (hp : p.Prime) (hq : q.Prime)
    (hne : p ≠ q) :
    (generate p q e = .error .invalidExponent ↔
      Nat.gcd e ((p - 1) * (q - 1)) ≠ 1) ∧
    (Nat.gcd e ((p - 1) * (q - 1)) = 1 →
      ∃ pub priv, generate p q e = .ok (pub, priv)) := by
  constructor
  · constructor
    · intro h hcop
      obtain ⟨d, iq, hd, hiq, hok⟩ := generate_ok hp hq hne hcop
      rw [hok] at h
      exact absurd h (by simp)
    · intro hg
      unfold generate
      rw [if_pos (by simpa using hg)]
  · intro hcop
    obtain ⟨d, iq, hd, hiq, hok⟩ := generate_ok hp hq hne hcop
    exact ⟨_, _, hok⟩

/-- Claim C5 witness: e = 2 is rejected (gcd(2, 160) = 2) while e = 3 is
accepted for p = 11, q = 17. -/
theorem generate_invalidExponent_iff_witness :
    generate 11 17 2 = .error .invalidExponent ∧
    generate 11 17 3 = .ok ({ N := 187, e := 3 },
      { N := 187, d := 107, p := 11, q := 17, dmp1 := 7, dmq1 := 11, iqmp := 2 }) := by
  constructor
  · exact (generate_invalidExponent_iff 11 17 2 (by norm_num) (by norm_num)
      (by norm_num)).1.mpr (by decide)
  · obtain ⟨pub, priv, hok⟩ := (generate_invalidExponent_iff 11 17 3 (by norm_num)
      (by norm_num) (by norm_num)).2 (by decide)
    rfl

/-- Claim C6 counterexample: at a = 1, m = 1 the preconditions hold
(gcd(1, 1) = 1 and m >= 1) and modInverse returns 0, yet (1*0) mod 1 = 0,
not 1 — no x in [0, 1) satisfies the stated residue equation. -/
theorem modInverse_m_one_counterexample :
    Nat.gcd 1 1 = 1 ∧ modInverse 1 1 = .ok 0 ∧ 1 * 0 % 1 ≠ 1 :=
  ⟨rfl, rfl, by norm_num⟩

/-- Claim C6 (amended): for every a and every m >= 2 with gcd(a, m) = 1,
modInverse(a, m) returns the unique x in [0, m) with (a*x) mod m = 1 (at
m = 1 it returns 0, for which a*0 = 1 holds only modulo 1, not as the
residue equation); when gcd(a, m) is not 1 it fails with NoInverseExists. -/
theorem modInverse_spec (a m : Nat) (hm : 2 ≤ m) :
    (Nat.gcd a m = 1 → ∃ x, modInverse a m = .ok x ∧ x < m ∧ a * x % m = 1 ∧
      ∀ y, y < m → a * y % m = 1 → y = x) ∧
    (Nat.gcd a m ≠ 1 → modInverse a m = .error .noInverseExists) := by
  constructor
  · intro hcop
    obtain ⟨x, hx⟩ := modInverse_exists a m (by omega) hcop
    obtain ⟨hlt, hmod⟩ := modInverse_ok hx
    have h1 : (1 : Nat) % m = 1 := Nat.mod_eq_of_lt (by omega)
    rw [h1] at hmod
    refine ⟨x, hx, hlt, hmod, ?_⟩
    intro y hy hay
    exact modInverse_unique hcop hy hlt (by rw [h1]; exact hay) (by rw [h1]; exact hmod)
  · intro hg
    exact modInverse_none a m hg

/-- Claim C6 witness: modInverse 3 160 is 107 with 3*107 mod 160 = 1, and
modInverse 2 160 fails. -/
theorem modInverse_spec_witness :
    modInverse 3 160 = .ok 107 ∧ 3 * 107 % 160 = 1 ∧
    modInverse 2 160 = .error .noInverseExists := by
  obtain ⟨x, hx, hlt, hmod, huniq⟩ :=
    (modInverse_spec 3 160 (by norm_num)).1 (by decide)
  have h107 : (107 : Nat) = x := huniq 107 (by norm_num) (by norm_num)
  refine ⟨?_, ?_, (modInverse_spec 2 160 (by norm_num)).2 (by decide)⟩
  · rw [h107]; exact hx
  · rw [h107]; exact hmod

/-- Claim C7: for every byte sequence whose encoding reaches the modulus,
the encoding operation fails with EncodingOverflow and produces no
value, and below the modulus it returns exactly the untruncated,
unsubstituted encoding — substitution happens only above this layer.
Concretely, the two-byte text Hi (0x48, 0x69) encodes to 18537, which
overflows N = 187 and fails, and the caller-substituted single byte 72
then encrypts and decrypts back to 72. -/
theorem encoding_overflow_policy :
    (∀ bs N, N ≤ encodeText bs →
      encodeTextChecked bs N = .error .encodingOverflow) ∧
    (∀ bs N, encodeText bs < N →
      encodeTextChecked bs N = .ok (encodeText bs)) ∧
    encodeText [72, 105] = 18537 ∧
    encodeTextChecked [72, 105] 187 = .error .encodingOverflow ∧
    (encryptInt 72 { N := 187, e := 3 }).bind
      (fun c => decryptInt c
        { N := 187, d := 107, p := 11, q := 17, dmp1 := 7, dmq1 := 11, iqmp := 2 }) =
      .ok 72 := by
  refine ⟨?_, ?_, rfl, rfl, rfl⟩
  · intro bs N h
    unfold encodeTextChecked
    rw [if_neg (by omega)]
  · intro bs N h
    unfold encodeTextChecked
    rw [if_pos h]

/-- Claim C7 witness: the policy instantiated at the demo inputs — the
overflowing pair [72, 105] against N = 187 and the fitting single byte
[72]. -/
theorem encoding_overflow_policy_witness :
    encodeTextChecked [72, 105] 187 = .error .encodingOverflow ∧
    encodeTextChecked [72] 187 = .ok 72 :=
  ⟨encoding_overflow_policy.1 [72, 105] 187 (by decide),
    encoding_overflow_policy.2.1 [72] 187 (by decide)⟩

/-- Claim C8: the concrete demo scenario: generate(11, 17, 3) yields
N = 187, phi = 160, d = 107 with 3*107 mod 160 = 1, dmp1 = 107 mod 10,
dmq1 = 107 mod 16, iqmp the inverse of 17 mod 11; the attack factors
187 into (11, 17) and recovers 107, equal to the original d. -/
theorem demo_scenario_spec :
    generate 11 17 3 = .ok ({ N := 187, e := 3 },
      { N := 187, d := 107, p := 11, q := 17,
        dmp1 := 107 % 10, dmq1 := 107 % 16, iqmp := 2 }) ∧
    (11 - 1) * (17 - 1) = 160 ∧ 3 * 107 % 160 = 1 ∧
    modInverse 17 11 = .ok 2 ∧
    factor 187 = some (11, 17) ∧
    recoverPrivateExponent 187 3 = .ok 107 ∧
    isCompromised 107 107 = true :=
  ⟨rfl, rfl, rfl, rfl, rfl, rfl, rfl⟩

/-- Claim C2: for N = p*q with p, q distinct primes and e coprime to
phi = (p-1)*(q-1), recoverPrivateExponent(N, e) returns a dr with
(e*dr) mod phi = 1 and isCompromised(dr, d) holds for any key pair
generated with that same e; when gcd(e, phi) is not 1 it signals
NonCoprimeExponent. -/
theorem recoverPrivateExponent_spec (p q e : Nat) (hp : p.Prime) (hq : q.Prime)
    (hne : p ≠ q) :
    (Nat.gcd e ((p - 1) * (q - 1)) = 1 →
      ∃ dr, recoverPrivateExponent (p * q) e = .ok dr ∧
        e * dr % ((p - 1) * (q - 1)) = 1 ∧
        ∀ pub priv, generate p q e = .ok (pub, priv) →
          isCompromised dr priv.d = true) ∧
    (Nat.gcd e ((p - 1) * (q - 1)) ≠ 1 →
      recoverPrivateExponent (p * q) e = .error .nonCoprimeExponent) := by
  have hfac := factor_of_distinct_primes hp hq hne
  have hphi : (min p q - 1) * (max p q - 1) = (p - 1) * (q - 1) := by
    rcases le_total p q with h | h
    · rw [min_eq_left h, max_eq_right h]
    · rw [min_eq_right h, max_eq_left h, mul_comm]
  have hphi2 := two_le_phi hp hq hne
  constructor
  · intro hcop
    obtain ⟨dr, hdr⟩ := modInverse_exists e ((p - 1) * (q - 1)) (by omega) hcop
    have hrec : recoverPrivateExponent (p * q) e = .ok dr := by
      unfold recoverPrivateExponent
      rw [hfac]
      show (if Nat.gcd e ((min p q - 1) * (max p q - 1)) = 1 then
          modInverse e ((min p q - 1) * (max p q - 1))
        else .error .nonCoprimeExponent) = .ok dr
      rw [hphi, if_pos hcop]
      exact hdr
    obtain ⟨hdlt, hdmod⟩ := modInverse_ok hdr
    have hmod1 : e * dr % ((p - 1) * (q - 1)) = 1 := by
      rwa [show (1 : Nat) % ((p - 1) * (q - 1)) = 1 from Nat.mod_eq_of_lt (by omega)]
        at hdmod
    refine ⟨dr, hrec, hmod1, ?_⟩
    intro pub priv hgen
    obtain ⟨-, -, -, -, -, hd, -, -, -⟩ := generate_inv hgen
    rw [hdr] at hd
    have heq : dr = priv.d := by injection hd
    unfold isCompromised
    rw [heq]
    simp
  · intro hg
    unfold recoverPrivateExponent
    rw [hfac]
    show (if Nat.gcd e ((min p q - 1) * (max p q - 1)) = 1 then
        modInverse e ((min p q - 1) * (max p q - 1))
      else .error .nonCoprimeExponent) = .error .nonCoprimeExponent
    rw [hphi, if_neg hg]

/-- Claim C2 witness: the attack on the demo key N = 187, e = 3 recovers
107, which matches the generated private exponent. -/
theorem recoverPrivateExponent_spec_witness :
    recoverPrivateExponent 187 3 = .ok 107 ∧ 3 * 107 % 160 = 1 ∧
    isCompromised 107 107 = true := by
  obtain ⟨dr, hrec, hmod, hcomp⟩ :=
    (recoverPrivateExponent_spec 11 17 3 (by norm_num) (by norm_num)
      (by norm_num)).1 (by decide)
  rw [show (11 * 17 : Nat) = 187 from rfl] at hrec
  have hv : recoverPrivateExponent 187 3 = .ok 107 := rfl
  have h107 : (107 : Nat) = dr := Except.ok.inj (hv.symm.trans hrec)
  refine ⟨?_, ?_, ?_⟩
  · rw [h107]; exact hrec
  · rw [h107]
    exact hmod
  · rw [← h107] at hcomp
    exact hcomp { N := 187, e := 3 }
      { N := 187, d := 107, p := 11, q := 17, dmp1 := 7, dmq1 := 11, iqmp := 2 } rfl

/-- Claim C4 counterexample: generate 2 5 3 is a valid key pair (2 and 5
are distinct primes, e = 3 with 1 < 3 < 4 and gcd(3, 4) = 1), yet on
the valid ciphertext 2 the CRT path yields 3 while the direct path
yields 8: with p = 2 the exponent dmp1 = d mod (p-1) = d mod 1 = 0
makes the residue mod p wrong for even ciphertexts. -/
theorem decryptCRT_p2_counterexample :
    Nat.Prime 2 ∧ Nat.Prime 5 ∧ Nat.gcd 3 ((2 - 1) * (5 - 1)) = 1 ∧
    generate 2 5 3 = .ok ({ N := 10, e := 3 },
      { N := 10, d := 3, p := 2, q := 5, dmp1 := 0, dmq1 := 3, iqmp := 1 }) ∧
    decryptCRT 2 { N := 10, d := 3, p := 2, q := 5, dmp1 := 0, dmq1 := 3, iqmp := 1 } =
      .ok 3 ∧
    decryptInt 2 { N := 10, d := 3, p := 2, q := 5, dmp1 := 0, dmq1 := 3, iqmp := 1 } =
      .ok 8 ∧
    (3 : Nat) ≠ 8 :=
  ⟨by norm_num, by norm_num, rfl, rfl, rfl, rfl, by norm_num⟩

/-- Claim C4 (amended): for every valid key pair whose primes are both
odd (p, q distinct primes different from 2), the CRT-accelerated
decryption path agrees with the direct path on every ciphertext below
the modulus; with p = 2 or q = 2 the paths can differ, as dmp1 or dmq1
collapses to 0. -/
theorem decryptCRT_eq_decryptInt (p q e : Nat) (hp : p.Prime) (hq : q.Prime)
    (hne : p ≠ q) (hp2 : p ≠ 2) (hq2 : q ≠ 2)
    (pub : PublicKey) (priv : PrivateKey)
    (hgen : generate p q e = .ok (pub, priv))
    (c : Nat) (hc : c < priv.N) :
    decryptCRT c priv = decryptInt c priv := by
  obtain ⟨hcop, -, hprivN, hprivp, hprivq, hd, hdmp1, hdmq1, hiq⟩ := generate_inv hgen
  obtain ⟨hdlt, hdmod⟩ := modInverse_ok hd
  obtain ⟨hiqlt, hiqmod⟩ := modInverse_ok hiq
  have hphi2 := two_le_phi hp hq hne
  have hed : e * priv.d % ((p - 1) * (q - 1)) = 1 := by
    rwa [show (1 : Nat) % ((p - 1) * (q - 1)) = 1 from Nat.mod_eq_of_lt (by omega)]
      at hdmod
  have hedphi : e * priv.d ≡ 1 [MOD (p - 1) * (q - 1)] := by
    show e * priv.d % _ = 1 % _
    rw [hed, Nat.mod_eq_of_lt (by omega)]
  have hedp : e * priv.d ≡ 1 [MOD p - 1] := hedphi.of_dvd (dvd_mul_right _ _)
  have hedq : e * priv.d ≡ 1 [MOD q - 1] := hedphi.of_dvd (dvd_mul_left _ _)
  have hd1 : 1 ≤ priv.d := by
    by_contra hz
    have h0 : priv.d = 0 := by omega
    rw [h0, Nat.mul_zero, Nat.zero_mod] at hed
    omega
  have hp3 : 3 ≤ p := by
    have := hp.two_le; omega
  have hq3 : 3 ≤ q := by
    have := hq.two_le; omega
  have hdmp1pos : 1 ≤ priv.dmp1 := by
    rw [hdmp1]
    by_contra hz
    have hzz : priv.d % (p - 1) = 0 := by omega
    have hdvd : (p - 1) ∣ priv.d := Nat.dvd_of_mod_eq_zero hzz
    have hmul : e * priv.d % (p - 1) = 0 :=
      Nat.mod_eq_zero_of_dvd (Dvd.dvd.mul_left hdvd e)
    have h1p : (1 : Nat) % (p - 1) = 1 := Nat.mod_eq_of_lt (by omega)
    have := hedp
    unfold Nat.ModEq at this
    omega
  have hdmq1pos : 1 ≤ priv.dmq1 := by
    rw [hdmq1]
    by_contra hz
    have hzz : priv.d % (q - 1) = 0 := by omega
    have hdvd : (q - 1) ∣ priv.d := Nat.dvd_of_mod_eq_zero hzz
    have hmul : e * priv.d % (q - 1) = 0 :=
      Nat.mod_eq_zero_of_dvd (Dvd.dvd.mul_left hdvd e)
    have h1q : (1 : Nat) % (q - 1) = 1 := Nat.mod_eq_of_lt (by omega)
    have := hedq
    unfold Nat.ModEq at this
    omega
  have hdmp1eq : priv.dmp1 ≡ priv.d [MOD p - 1] := by
    rw [hdmp1]; exact Nat.mod_modEq _ _
  have hdmq1eq : priv.dmq1 ≡ priv.d [MOD q - 1] := by
    rw [hdmq1]; exact Nat.mod_modEq _ _
  have hNpos : 0 < p * q := Nat.mul_pos hp.pos hq.pos
  have hMlt : c ^ priv.d % (p * q) < p * q := Nat.mod_lt _ hNpos
  have hm1 : c ^ priv.dmp1 % p ≡ c ^ priv.d % (p * q) [MOD p] := by
    have step1 : c ^ priv.dmp1 % p ≡ c ^ priv.dmp1 [MOD p] := Nat.mod_modEq _ _
    have step2 : c ^ priv.dmp1 ≡ c ^ priv.d [MOD p] :=
      pow_modEq_pow hp c priv.dmp1 priv.d hdmp1pos hd1 hdmp1eq
    have step3 : c ^ priv.d ≡ c ^ priv.d % (p * q) [MOD p] := by
      show c ^ priv.d % p = c ^ priv.d % (p * q) % p
      exact (Nat.mod_mod_of_dvd _ (dvd_mul_right p q)).symm
    exact (step1.trans step2).trans step3
  have hm2 : c ^ priv.dmq1 % q ≡ c ^ priv.d % (p * q) [MOD q] := by
    have step1 : c ^ priv.dmq1 % q ≡ c ^ priv.dmq1 [MOD q] := Nat.mod_modEq _ _
    have step2 : c ^ priv.dmq1 ≡ c ^ priv.d [MOD q] :=
      pow_modEq_pow hq c priv.dmq1 priv.d hdmq1pos hd1 hdmq1eq
    have step3 : c ^ priv.d ≡ c ^ priv.d % (p * q) [MOD q] := by
      show c ^ priv.d % q = c ^ priv.d % (p * q) % q
      exact (Nat.mod_mod_of_dvd _ (dvd_mul_left q p)).symm
    exact (step1.trans step2).trans step3
  have hm2lt : c ^ priv.dmq1 % q < q := Nat.mod_lt _ hq.pos
  have hiqm : q * priv.iqmp ≡ 1 [MOD p] := hiqmod
  have hcopPQ : Nat.Coprime p q := (Nat.coprime_primes hp hq).mpr hne
  have hgarner := garner_combine hp.pos hq.pos hcopPQ hiqm hMlt hm1 hm2 hm2lt
  simp only [decryptCRT, decryptInt, modPow]
  rw [if_pos hc, if_pos hc]
  congr 1
  rw [hprivN, hprivp, hprivq]
  exact hgarner

/-- Claim C4 witness: on the demo key (p = 11, q = 17, both odd) the two
decryption paths agree at ciphertext 36. -/
theorem decryptCRT_eq_decryptInt_witness :
    decryptCRT 36 { N := 187, d := 107, p := 11, q := 17, dmp1 := 7, dmq1 := 11, iqmp := 2 } =
    decryptInt 36 { N := 187, d := 107, p := 11, q := 17, dmp1 := 7, dmq1 := 11, iqmp := 2 } :=
  decryptCRT_eq_decryptInt 11 17 3 (by norm_num) (by norm_num) (by norm_num)
    (by norm_num) (by norm_num) _ _ rfl 36 (by decide)

/-- Claim C9: whenever encryptInt succeeds its ciphertext lies below the
modulus, every successful decryptInt result lies below the modulus, and
any ciphertext produced by encryptInt satisfies decryptInt's
precondition, so it can never trigger CiphertextTooLarge. -/
theorem ciphertext_range_closure (pub : PublicKey) (priv : PrivateKey)
    (hN : priv.N = pub.N) :
    (∀ m c, encryptInt m pub = .ok c → c < pub.N) ∧
    (∀ c r, decryptInt c priv = .ok r → r < priv.N) ∧
    (∀ m c, encryptInt m pub = .ok c →
      decryptInt c priv = .ok (modPow c priv.d priv.N)) := by
  have henc : ∀ m c, encryptInt m pub = .ok c → c < pub.N := by
    intro m c h
    unfold encryptInt at h
    by_cases hm : m < pub.N
    · rw [if_pos hm] at h
      injection h with h1
      subst h1
      exact Nat.mod_lt _ (by omega)
    · rw [if_neg hm] at h
      exact absurd h (by simp)
  refine ⟨henc, ?_, ?_⟩
  · intro c r h
    unfold decryptInt at h
    by_cases hc : c < priv.N
    · rw [if_pos hc] at h
      injection h with h1
      subst h1
      exact Nat.mod_lt _ (by omega)
    · rw [if_neg hc] at h
      exact absurd h (by simp)
  · intro m c h
    have hcN : c < priv.N := by
      rw [hN]
      exact henc m c h
    unfold decryptInt
    rw [if_pos hcN]

/-- Claim C9 witness: 42 encrypts to 36 < 187, and decryptInt accepts 36
and returns 42 < 187. -/
theorem ciphertext_range_closure_witness :
    36 < 187 ∧
    decryptInt 36 { N := 187, d := 107, p := 11, q := 17, dmp1 := 7, dmq1 := 11, iqmp := 2 } =
      .ok 42 := by
  have h := ciphertext_range_closure { N := 187, e := 3 }
    { N := 187, d := 107, p := 11, q := 17, dmp1 := 7, dmq1 := 11, iqmp := 2 } rfl
  refine ⟨h.1 42 36 rfl, ?_⟩
  have h2 := h.2.2 42 36 rfl
  rw [h2]
  rfl

/-- Claim C10: decodeText maps zero to the empty byte sequence (the byte
count (bit_length + 7) / 8 is 0 at input 0), and every positive integer
to its minimal big-endian representation: it decodes back to n and has
no leading zero byte. -/
theorem decodeText_spec :
    decodeText 0 = [] ∧
    ∀ n, 0 < n → encodeText (decodeText n) = n ∧ decodeText n ≠ [] ∧
      (decodeText n).head? ≠ some 0 := by
  refine ⟨rfl, ?_⟩
  intro n hn
  obtain ⟨hlen1, hlow, hup⟩ := decodeText_bounds n hn
  have hroundtrip : encodeText (decodeText n) = n :=
    encodeText_toBytesBE _ n hup
  have hK : (bitLength n + 7) / 8 = ((bitLength n + 7) / 8 - 1) + 1 := by omega
  have hhead : (decodeText n).head? =
      some (n / 256 ^ ((bitLength n + 7) / 8 - 1) % 256) := by
    unfold decodeText
    rw [hK]
    exact toBytesBE_head _ n
  have hpowpos : 0 < 256 ^ ((bitLength n + 7) / 8 - 1) := Nat.pos_pow_of_pos _ (by norm_num)
  have hq1 : 1 ≤ n / 256 ^ ((bitLength n + 7) / 8 - 1) :=
    (Nat.one_le_div_iff hpowpos).mpr hlow
  have hq256 : n / 256 ^ ((bitLength n + 7) / 8 - 1) < 256 := by
    rw [Nat.div_lt_iff_lt_mul hpowpos]
    calc n < 256 ^ ((bitLength n + 7) / 8) := hup
    _ = 256 ^ (((bitLength n + 7) / 8 - 1) + 1) := by rw [← hK]
    _ = 256 * 256 ^ ((bitLength n + 7) / 8 - 1) := by ring
  refine ⟨hroundtrip, ?_, ?_⟩
  · intro hnil
    rw [hnil] at hhead
    exact absurd hhead (by simp)
  · rw [hhead, Nat.mod_eq_of_lt hq256]
    intro hcon
    have : n / 256 ^ ((bitLength n + 7) / 8 - 1) = 0 := by
      injection hcon
    omega

/-- Claim C10 witness: decodeText 0 is empty, and 18537 decodes to a
nonempty sequence with nonzero head that encodes back to 18537. -/
theorem decodeText_spec_witness :
    decodeText 0 = [] ∧ encodeText (decodeText 18537) = 18537 ∧
    decodeText 18537 ≠ [] ∧ (decodeText 18537).head? ≠ some 0 :=
  ⟨decodeText_spec.1, (decodeText_spec.2 18537 (by norm_num)).1,
    (decodeText_spec.2 18537 (by norm_num)).2.1,
    (decodeText_spec.2 18537 (by norm_num)).2.2⟩
